import Mathlib

/-!
Shallow embedding of the Kaoyan vocabulary-drill application core:
the quiz session state machine, the mistake ledger, the review
scheduler (src/unnamed/part_000, symbol App) and the content-provider
batch fetcher (src/services/geminiService.ts, symbol fetchWordBatch).

Modelling conventions:
* JavaScript numbers used here (timestamps, counters, array indices)
  are naturals; all of them are nonnegative integers in the source.
* The 1500 ms reward timer between a correct answer and the result
  screen is collapsed: a correct submission transitions directly to
  the REVIEW status (while the timer is pending the option buttons
  are disabled via the showReward flag, so no further submission can
  occur in that window).
* Asynchronous fetches are modelled by passing the eventual outcome
  of the promise as an event parameter (Except Unit, with Unit
  standing for the opaque ProviderError).
* Math.random() draws are modelled by natural-number parameters:
  Math.floor(r * n) for r uniform in [0,1) ranges exactly over
  0..n-1, which `u % n` reproduces; Math.floor(r * 11) + 10 ranges
  exactly over 10..20, which `u % 11 + 10` reproduces.
* window.alert calls are recorded by a counter `alerts` in the state;
  console.error logging is not user-visible and is not recorded.
-/

/-- types.ts: WordCard. -/
structure WordCard where
  word : String
  phonetic : String
  meaning : String
  options : List String
  mnemonic : String
  sentence : String
  sentenceTranslation : String
deriving DecidableEq

/-- types.ts: MistakeRecord extends WordCard with timestamp and streak. -/
structure MistakeRecord extends WordCard where
  timestamp : Nat
  consecutiveCorrect : Nat
deriving DecidableEq

deriving instance DecidableEq for Except

/-- types.ts: AppStatus. -/
inductive AppStatus where
  | IDLE
  | LOADING
  | QUIZ
  | REVIEW
  | MISTAKES
deriving DecidableEq

/-- The React state of the App component (src/unnamed/part_000, lines 9-26),
restricted to the fields the session logic reads or writes.  `initFetch`
models the single-slot background prefetch handle `initFetchPromise`
(holding the eventual outcome of the promise started on mount), and
`alerts` counts window.alert calls. -/
structure AppState where
  status : AppStatus
  words : List WordCard
  currentIndex : Nat
  mistakes : List MistakeRecord
  selectedOption : Option String
  wrongCandidates : List String
  reviewWord : Option MistakeRecord
  wordsSinceReview : Nat
  nextReviewThreshold : Nat
  initFetch : Option (Except Unit (List WordCard))
  alerts : Nat
deriving DecidableEq

/-- Mount effect (lines 29-37): mistakes are loaded from the persistent
store and the background batch fetch is started.  `m0` is the loaded
ledger, `pf` the eventual outcome of the prefetch. -/
def initState (m0 : List MistakeRecord) (pf : Except Unit (List WordCard)) : AppState :=
  { status := AppStatus.IDLE
    words := []
    currentIndex := 0
    mistakes := m0
    selectedOption := none
    wrongCandidates := []
    reviewWord := none
    wordsSinceReview := 0
    nextReviewThreshold := 10
    initFetch := some pf
    alerts := 0 }

/-- resetCardState (lines 89-93); the showReward flag is collapsed away. -/
def resetCardState (s : AppState) : AppState :=
  { s with selectedOption := none, wrongCandidates := [] }

/-- activeCard (line 104): `reviewWord || words[currentIndex]`; an
out-of-range index yields undefined, modelled as none. -/
def activeCard (s : AppState) : Option WordCard :=
  match s.reviewWord with
  | some r => some r.toWordCard
  | none => s.words[s.currentIndex]?

/-- addToMistakes (lines 157-162): no-op when a record with the same word
exists, otherwise prepend a fresh record with streak 0 and the current
timestamp `now`. -/
def addToMistakes (now : Nat) (wordToAdd : WordCard) (prev : List MistakeRecord) :
    List MistakeRecord :=
  if prev.any (fun m => m.word == wordToAdd.word) then prev
  else { toWordCard := wordToAdd, timestamp := now, consecutiveCorrect := 0 } :: prev

/-- handleAnswer (lines 106-155).  `now` is Date.now() at the moment of the
second wrong submission (used only by addToMistakes). -/
def handleAnswer (now : Nat) (option : String) (s : AppState) : AppState :=
  match activeCard s with
  | none => s
  | some card =>
    if option == card.meaning then
      let s1 :=
        match s.reviewWord with
        | some r =>
          { s with mistakes := s.mistakes.map (fun (m : MistakeRecord) =>
              if m.word == r.word then
                { m with consecutiveCorrect := m.consecutiveCorrect + 1 }
              else m) }
        | none => s
      { s1 with selectedOption := some option, status := AppStatus.REVIEW }
    else
      if s.wrongCandidates.length == 0 then
        { s with wrongCandidates := s.wrongCandidates ++ [option] }
      else
        let s1 := { s with selectedOption := some option, status := AppStatus.REVIEW }
        match s.reviewWord with
        | some r =>
          { s1 with mistakes := s1.mistakes.map (fun (m : MistakeRecord) =>
              if m.word == r.word then { m with consecutiveCorrect := 0 } else m) }
        | none =>
          { s1 with mistakes := addToMistakes now card s1.mistakes }

/-- The eligible set (line 181): ledger records that are not yet
mastered, in ledger order. -/
def reviewCandidates (ms : List MistakeRecord) : List MistakeRecord :=
  ms.filter (fun m => m.consecutiveCorrect < 3)

/-- nextWord (lines 164-212).  `rIdx` and `rThr` model the two
Math.random() draws (candidate selection and new threshold); `fetch` is
the eventual outcome of fetchWordBatch() when a new batch is needed
(the transient LOADING status is collapsed into the outcome). -/
def nextWord (rIdx rThr : Nat) (fetch : Except Unit (List WordCard)) (s : AppState) :
    AppState :=
  let s := resetCardState s
  match s.reviewWord with
  | some _ => { s with reviewWord := none, status := AppStatus.QUIZ }
  | none =>
    let nextCounter := s.wordsSinceReview + 1
    let s := { s with wordsSinceReview := nextCounter }
    let cands := reviewCandidates s.mistakes
    if h : s.nextReviewThreshold ≤ nextCounter ∧ 0 < cands.length then
      { s with
        reviewWord := some (cands.get ⟨rIdx % cands.length, Nat.mod_lt rIdx h.2⟩)
        wordsSinceReview := 0
        nextReviewThreshold := rThr % 11 + 10
        status := AppStatus.QUIZ }
    else
      if s.currentIndex < s.words.length - 1 then
        { s with currentIndex := s.currentIndex + 1, status := AppStatus.QUIZ }
      else
        match fetch with
        | Except.ok newWords =>
          { s with words := newWords, currentIndex := 0, status := AppStatus.QUIZ }
        | Except.error _ => { s with status := AppStatus.IDLE }

/-- startSession (lines 61-87): consumes the prefetch slot if present,
otherwise uses a fresh fetch outcome; on failure alerts the user,
returns to IDLE and clears the slot. -/
def startSession (fetch : Except Unit (List WordCard)) (s : AppState) : AppState :=
  let result := match s.initFetch with
    | some r => r
    | none => fetch
  match result with
  | Except.ok newWords =>
    resetCardState
      { s with words := newWords, currentIndex := 0, reviewWord := none,
               wordsSinceReview := 0, status := AppStatus.QUIZ, initFetch := none }
  | Except.error _ =>
    { s with status := AppStatus.IDLE, initFetch := none, alerts := s.alerts + 1 }

/-- removeMistake (lines 214-216). -/
def removeMistake (wordToRemove : String) (s : AppState) : AppState :=
  { s with mistakes := s.mistakes.filter (fun m => m.word != wordToRemove) }

/-- User/system events driving the state machine.  Random draws, the
current time and fetch outcomes are carried on the events. -/
inductive Event where
  | start (fetch : Except Unit (List WordCard))
  | answer (now : Nat) (option : String)
  | next (rIdx rThr : Nat) (fetch : Except Unit (List WordCard))
  | manualAdd (now : Nat)
  | remove (word : String)
  | openMistakes
  | closeMistakes
  | goHome
deriving DecidableEq

/-- One transition of the session, guarded by which controls the
presentation layer exposes in each status (src/unnamed/part_000,
renderWelcome / renderQuiz / renderReview / renderMistakes and the top
bar): Start Training only in IDLE; option buttons only in QUIZ and
disabled for an already-wrong option; Continue and the manual-add
button only in REVIEW (manual add only for a non-review card that is
on screen); record removal only in MISTAKES; the mistake notebook is
reachable from IDLE, QUIZ and REVIEW; Close and the logo go to IDLE. -/
def step (e : Event) (s : AppState) : AppState :=
  match e with
  | Event.start fetch =>
    if s.status = AppStatus.IDLE then startSession fetch s else s
  | Event.answer now opt =>
    if s.status = AppStatus.QUIZ ∧ opt ∉ s.wrongCandidates then handleAnswer now opt s
    else s
  | Event.next rIdx rThr fetch =>
    if s.status = AppStatus.REVIEW then nextWord rIdx rThr fetch s else s
  | Event.manualAdd now =>
    if s.status = AppStatus.REVIEW ∧ s.reviewWord = none then
      match activeCard s with
      | some c => { s with mistakes := addToMistakes now c s.mistakes }
      | none => s
    else s
  | Event.remove w =>
    if s.status = AppStatus.MISTAKES then removeMistake w s else s
  | Event.openMistakes =>
    if s.status = AppStatus.IDLE ∨ s.status = AppStatus.QUIZ ∨ s.status = AppStatus.REVIEW
    then { s with status := AppStatus.MISTAKES } else s
  | Event.closeMistakes =>
    if s.status = AppStatus.MISTAKES then { s with status := AppStatus.IDLE } else s
  | Event.goHome => { s with status := AppStatus.IDLE }

/-- Run a list of events from a state. -/
def steps (evs : List Event) (s : AppState) : AppState :=
  evs.foldl (fun s e => step e s) s

/-- States reachable from the mount state with loaded ledger `m0` and
prefetch outcome `pf`. -/
def Reachable (m0 : List MistakeRecord) (pf : Except Unit (List WordCard))
    (s : AppState) : Prop :=
  ∃ evs : List Event, steps evs (initState m0 pf) = s

/-!
Content provider (src/services/geminiService.ts, fetchWordBatch,
lines 27-70).  The generateContent response either rejects (or its text
fails to JSON.parse) -- both reach the catch block and rethrow -- or
yields an optional text that parses to a list of cards.  The client
shuffles each card's options with Array.prototype.sort under the random
comparator `() => Math.random() - 0.5`; an ECMAScript sort always
returns a rearrangement of its input whatever the comparator, so the
shuffle is modelled as a sort parameterised by an arbitrary boolean
comparator (one draw per comparison).
-/

/-- A generateContent outcome as fetchWordBatch observes it: rejection /
unparseable text, or a response whose `text` is absent, or a parsed
card list. -/
inductive ProviderResponse where
  | fail
  | ok (text : Option (List WordCard))

/-- Insertion step of the comparator sort. -/
def insertCmp {α : Type} (cmp : α → α → Bool) (a : α) : List α → List α
  | [] => [a]
  | b :: bs => if cmp a b then a :: b :: bs else b :: insertCmp cmp a bs

/-- Sort under an arbitrary comparator: models Array.prototype.sort with
the random comparator, whose only guarantee is to rearrange. -/
def sortCmp {α : Type} (cmp : α → α → Bool) : List α → List α
  | [] => []
  | a :: as => insertCmp cmp a (sortCmp cmp as)

/-- fetchWordBatch: rethrows provider/parse failures, returns [] when the
response has no text, and otherwise returns the parsed cards with each
card's options shuffled client-side. -/
def fetchWordBatch (cmp : String → String → Bool) (resp : ProviderResponse) :
    Except Unit (List WordCard) :=
  match resp with
  | ProviderResponse.fail => Except.error ()
  | ProviderResponse.ok none => Except.ok []
  | ProviderResponse.ok (some data) =>
    Except.ok (data.map (fun item => { item with options := sortCmp cmp item.options }))

/-!
Persistent store round trip (src/unnamed/part_000, lines 29-42):
JSON.stringify(mistakes) on save, JSON.parse on load.  Serialization is
modelled at the JSON-value level: a MistakeRecord's fields are strings
and nonnegative integers (Date.now() and the streak), all exactly
representable, and arrays/objects preserve order.
-/

/-- JSON values produced and consumed by the store round trip. -/
inductive Json where
  | str (s : String)
  | num (n : Nat)
  | arr (xs : List Json)
  | obj (fields : List (String × Json))

/-- JSON.stringify of one MistakeRecord (field order as in the object). -/
def encodeRecord (m : MistakeRecord) : Json :=
  Json.obj
    [("word", Json.str m.word),
     ("phonetic", Json.str m.phonetic),
     ("meaning", Json.str m.meaning),
     ("options", Json.arr (m.options.map Json.str)),
     ("mnemonic", Json.str m.mnemonic),
     ("sentence", Json.str m.sentence),
     ("sentenceTranslation", Json.str m.sentenceTranslation),
     ("timestamp", Json.num m.timestamp),
     ("consecutiveCorrect", Json.num m.consecutiveCorrect)]

/-- JSON.stringify of the ledger: an ordered array of record objects. -/
def encodeLedger (ms : List MistakeRecord) : Json :=
  Json.arr (ms.map encodeRecord)

/-- Field lookup in a parsed JSON object. -/
def getField (fs : List (String × Json)) (k : String) : Option Json :=
  match fs.find? (fun p => p.1 == k) with
  | some p => some p.2
  | none => none

/-- Decode a JSON array of strings. -/
def decodeStrs : List Json → Option (List String)
  | [] => some []
  | Json.str s :: js =>
    match decodeStrs js with
    | some ss => some (s :: ss)
    | none => none
  | _ => none

/-- JSON.parse of one MistakeRecord. -/
def decodeRecord (j : Json) : Option MistakeRecord :=
  match j with
  | Json.obj fs =>
    match getField fs "word", getField fs "phonetic", getField fs "meaning",
          getField fs "options", getField fs "mnemonic", getField fs "sentence",
          getField fs "sentenceTranslation", getField fs "timestamp",
          getField fs "consecutiveCorrect" with
    | some (Json.str w), some (Json.str ph), some (Json.str me), some (Json.arr os),
      some (Json.str mn), some (Json.str se), some (Json.str st), some (Json.num ts),
      some (Json.num cc) =>
      match decodeStrs os with
      | some opts =>
        some { word := w, phonetic := ph, meaning := me, options := opts,
               mnemonic := mn, sentence := se, sentenceTranslation := st,
               timestamp := ts, consecutiveCorrect := cc }
      | none => none
    | _, _, _, _, _, _, _, _, _ => none
  | _ => none

/-- Decode a list of record objects. -/
def decodeRecords : List Json → Option (List MistakeRecord)
  | [] => some []
  | j :: js =>
    match decodeRecord j, decodeRecords js with
    | some m, some ms => some (m :: ms)
    | _, _ => none

/-- JSON.parse of the stored ledger. -/
def decodeLedger (j : Json) : Option (List MistakeRecord) :=
  match j with
  | Json.arr js => decodeRecords js
  | _ => none

/-!
Helper lemmas (shared across the claim theorems below).
-/

theorem decodeStrs_encode (os : List String) :
    decodeStrs (os.map Json.str) = some os := by
  induction os with
  | nil => rfl
  | cons a as ih => simp [decodeStrs, ih]

theorem decodeRecord_encodeRecord (m : MistakeRecord) :
    decodeRecord (encodeRecord m) = some m := by
  have h : decodeRecord (encodeRecord m) =
      match decodeStrs (m.options.map Json.str) with
      | some opts => some { m with options := opts }
      | none => none := rfl
  rw [h, decodeStrs_encode]

theorem decodeRecords_encode (ms : List MistakeRecord) :
    decodeRecords (ms.map encodeRecord) = some ms := by
  induction ms with
  | nil => rfl
  | cons m ms ih => simp [decodeRecords, decodeRecord_encodeRecord, ih]

theorem insertCmp_perm {α : Type} (cmp : α → α → Bool) (a : α) (l : List α) :
    (insertCmp cmp a l).Perm (a :: l) := by
  induction l with
  | nil => exact List.Perm.refl _
  | cons b bs ih =>
    by_cases h : cmp a b
    · simp [insertCmp, h]
    · simp only [insertCmp, h, if_neg, Bool.false_eq_true, not_false_eq_true]
      exact List.Perm.trans (List.Perm.cons b ih) (List.Perm.swap a b bs)

theorem sortCmp_perm {α : Type} (cmp : α → α → Bool) (l : List α) :
    (sortCmp cmp l).Perm l := by
  induction l with
  | nil => exact List.Perm.refl _
  | cons a as ih =>
    exact List.Perm.trans (insertCmp_perm cmp a (sortCmp cmp as)) (List.Perm.cons a ih)

/-- In a ledger whose words are nodup, two members with the same word are
the same record. -/
theorem ledger_word_inj {ms : List MistakeRecord}
    (h : (ms.map (fun m => m.word)).Nodup) {a b : MistakeRecord}
    (ha : a ∈ ms) (hb : b ∈ ms) (hw : a.word = b.word) : a = b :=
  List.inj_on_of_nodup_map h ha hb hw

/-- Well-formedness of a ledger: streaks bounded by 3 and words unique. -/
def ledgerWF (ms : List MistakeRecord) : Prop :=
  (∀ m ∈ ms, m.consecutiveCorrect ≤ 3) ∧ (ms.map (fun m => m.word)).Nodup

/-- Session invariant: well-formed ledger, at most one recorded wrong
attempt per card instance, and while a review card is on the quiz
screen the ledger record backing it is not yet mastered. -/
def WF (s : AppState) : Prop :=
  ledgerWF s.mistakes ∧
  s.wrongCandidates.length ≤ 1 ∧
  (s.status = AppStatus.QUIZ → ∀ r : MistakeRecord, s.reviewWord = some r →
    ∀ m ∈ s.mistakes, m.word = r.word → m.consecutiveCorrect < 3)

theorem ledgerWF_addToMistakes (now : Nat) (c : WordCard) {ms : List MistakeRecord}
    (h : ledgerWF ms) : ledgerWF (addToMistakes now c ms) := by
  unfold addToMistakes
  by_cases hex : ms.any (fun m => m.word == c.word)
  · simpa [hex] using h
  · simp only [hex, if_neg, Bool.false_eq_true, not_false_eq_true]
    constructor
    · intro m hm
      rcases List.mem_cons.mp hm with h1 | h1
      · subst h1; simp
      · exact h.1 m h1
    · simp only [List.map_cons, List.nodup_cons]
      refine ⟨?_, h.2⟩
      intro hmem
      rcases List.mem_map.mp hmem with ⟨m, hm, hwm⟩
      have : ms.any (fun m => m.word == c.word) = true :=
        List.any_eq_true.mpr ⟨m, hm, by simp [hwm]⟩
      exact hex this

theorem ledgerWF_filter (p : MistakeRecord → Bool) {ms : List MistakeRecord}
    (h : ledgerWF ms) : ledgerWF (ms.filter p) := by
  constructor
  · intro m hm
    exact h.1 m (List.mem_of_mem_filter hm)
  · exact ((List.filter_sublist ms).map (fun m => m.word)).nodup h.2

theorem ledgerWF_update {w : String} (g : Nat → Nat) {ms : List MistakeRecord}
    (h : ledgerWF ms)
    (hg : ∀ m ∈ ms, m.word = w → g m.consecutiveCorrect ≤ 3) :
    ledgerWF (ms.map (fun (m : MistakeRecord) =>
      if m.word == w then { m with consecutiveCorrect := g m.consecutiveCorrect }
      else m)) := by
  constructor
  · intro m' hm'
    rcases List.mem_map.mp hm' with ⟨m, hm, rfl⟩
    by_cases hw : m.word == w
    · simp only [hw, if_pos]
      exact hg m hm (eq_of_beq hw)
    · simp only [hw, Bool.false_eq_true, not_false_eq_true, if_neg]
      exact h.1 m hm
  · have heq : (ms.map (fun (m : MistakeRecord) =>
        if m.word == w then { m with consecutiveCorrect := g m.consecutiveCorrect }
        else m)).map (fun m => m.word) = ms.map (fun m => m.word) := by
      rw [List.map_map]
      apply List.map_congr_left
      intro m _
      show (if m.word == w then _ else m).word = m.word
      split <;> rfl
    rw [heq]
    exact h.2

theorem WF_handleAnswer (now : Nat) (opt : String) {s : AppState}
    (h : WF s) (hq : s.status = AppStatus.QUIZ) : WF (handleAnswer now opt s) := by
  obtain ⟨hled, hwrong, hrev⟩ := h
  unfold handleAnswer
  cases hac : activeCard s with
  | none => exact ⟨hled, hwrong, hrev⟩
  | some card =>
    by_cases hm : opt == card.meaning
    · simp only [hm, if_pos]
      cases hrw : s.reviewWord with
      | none =>
        refine ⟨hled, by simpa using hwrong, ?_⟩
        intro hst
        simp at hst
      | some r =>
        refine ⟨?_, by simpa using hwrong, ?_⟩
        · simp only
          refine ledgerWF_update (fun n => n + 1) hled ?_
          intro m hmem hword
          have hlt := hrev hq r hrw m hmem hword
          show m.consecutiveCorrect + 1 ≤ 3
          omega
        · intro hst
          simp at hst
    · simp only [hm, Bool.false_eq_true, not_false_eq_true, if_neg]
      by_cases hz : s.wrongCandidates.length == 0
      · simp only [hz, if_pos]
        refine ⟨hled, ?_, ?_⟩
        · simp only [List.length_append, List.length_singleton]
          have : s.wrongCandidates.length = 0 := by simpa using hz
          omega
        · intro hst rr hrr m hmem hword
          exact hrev hst rr hrr m hmem hword
      · simp only [hz, Bool.false_eq_true, not_false_eq_true, if_neg]
        cases hrw : s.reviewWord with
        | some r =>
          refine ⟨?_, by simpa using hwrong, ?_⟩
          · simp only
            refine ledgerWF_update (fun _ => 0) hled ?_
            intro m _ _
            show (0 : Nat) ≤ 3
            omega
          · intro hst
            simp at hst
        | none =>
          refine ⟨?_, by simpa using hwrong, ?_⟩
          · simp only
            exact ledgerWF_addToMistakes now card hled
          · intro hst
            simp at hst


theorem nextWord_mistakes (rIdx rThr : Nat) (fetch : Except Unit (List WordCard))
    (s : AppState) : (nextWord rIdx rThr fetch s).mistakes = s.mistakes := by
  unfold nextWord resetCardState
  cases hrw : s.reviewWord with
  | some r => simp only [hrw]
  | none =>
    simp only [hrw]
    split
    · rfl
    · split
      · rfl
      · cases fetch <;> rfl

theorem nextWord_wrongCandidates (rIdx rThr : Nat) (fetch : Except Unit (List WordCard))
    (s : AppState) : (nextWord rIdx rThr fetch s).wrongCandidates = [] := by
  unfold nextWord resetCardState
  cases hrw : s.reviewWord with
  | some r => simp only [hrw]
  | none =>
    simp only [hrw]
    split
    · rfl
    · split
      · rfl
      · cases fetch <;> rfl

/-- After a review card, advancing clears the review slot and resumes the
regular flow at the same position with every counter untouched. -/
theorem nextWord_after_review {s : AppState} {r : MistakeRecord}
    (h : s.reviewWord = some r) (rIdx rThr : Nat) (fetch : Except Unit (List WordCard)) :
    nextWord rIdx rThr fetch s =
      { s with selectedOption := none, wrongCandidates := [],
               reviewWord := none, status := AppStatus.QUIZ } := by
  unfold nextWord resetCardState
  simp only [h]

/-- A record injected by the scheduler is an eligible ledger member. -/
theorem nextWord_inject_mem {rIdx rThr : Nat} {fetch : Except Unit (List WordCard)}
    {s : AppState} {rr : MistakeRecord} (hrw : s.reviewWord = none)
    (hrr : (nextWord rIdx rThr fetch s).reviewWord = some rr) :
    rr ∈ s.mistakes ∧ rr.consecutiveCorrect < 3 := by
  unfold nextWord resetCardState at hrr
  simp only [hrw] at hrr
  split at hrr
  case isTrue hcond =>
    simp only [Option.some.injEq] at hrr
    have hsel := List.get_mem (reviewCandidates s.mistakes)
      (rIdx % (reviewCandidates s.mistakes).length)
      (Nat.mod_lt rIdx hcond.2)
    rw [hrr] at hsel
    simp only [reviewCandidates] at hsel
    have hmf := List.mem_filter.mp hsel
    exact ⟨hmf.1, of_decide_eq_true hmf.2⟩
  case isFalse hcond =>
    split at hrr
    · simp at hrr
    · split at hrr <;> simp at hrr

theorem nextWord_review_some {s : AppState} {r : MistakeRecord}
    (h : s.reviewWord = some r) (rIdx rThr : Nat) (fetch : Except Unit (List WordCard)) :
    (nextWord rIdx rThr fetch s).reviewWord = none := by
  rw [nextWord_after_review h rIdx rThr fetch]

theorem WF_nextWord (rIdx rThr : Nat) (fetch : Except Unit (List WordCard)) {s : AppState}
    (h : WF s) : WF (nextWord rIdx rThr fetch s) := by
  obtain ⟨hled, _, _⟩ := h
  refine ⟨?_, ?_, ?_⟩
  · rw [nextWord_mistakes]
    exact hled
  · rw [nextWord_wrongCandidates]
    simp
  · intro _ rr hrr m hmem hword
    cases hsrw : s.reviewWord with
    | some r0 =>
      rw [nextWord_review_some hsrw] at hrr
      cases hrr
    | none =>
      rw [nextWord_mistakes] at hmem
      have h2 := nextWord_inject_mem hsrw hrr
      have heqm : m = rr := ledger_word_inj hled.2 hmem h2.1 hword
      rw [heqm]
      exact h2.2

theorem WF_startSession (fetch : Except Unit (List WordCard)) {s : AppState}
    (h : WF s) : WF (startSession fetch s) := by
  obtain ⟨hled, hwrong, hrev⟩ := h
  unfold startSession resetCardState
  cases hif : s.initFetch with
  | some r =>
    simp only [hif]
    cases r with
    | ok newWords =>
      refine ⟨hled, by simp, ?_⟩
      intro _ rr hrr
      simp at hrr
    | error e =>
      refine ⟨hled, hwrong, ?_⟩
      intro hst
      simp at hst
  | none =>
    simp only [hif]
    cases fetch with
    | ok newWords =>
      refine ⟨hled, by simp, ?_⟩
      intro _ rr hrr
      simp at hrr
    | error e =>
      refine ⟨hled, hwrong, ?_⟩
      intro hst
      simp at hst

theorem WF_step (e : Event) {s : AppState} (h : WF s) : WF (step e s) := by
  obtain ⟨hled, hwrong, hrev⟩ := h
  cases e with
  | start fetch =>
    simp only [step]
    split
    · exact WF_startSession fetch ⟨hled, hwrong, hrev⟩
    · exact ⟨hled, hwrong, hrev⟩
  | answer now opt =>
    simp only [step]
    split
    case isTrue hc => exact WF_handleAnswer now opt ⟨hled, hwrong, hrev⟩ hc.1
    case isFalse => exact ⟨hled, hwrong, hrev⟩
  | next rIdx rThr fetch =>
    simp only [step]
    split
    · exact WF_nextWord rIdx rThr fetch ⟨hled, hwrong, hrev⟩
    · exact ⟨hled, hwrong, hrev⟩
  | manualAdd now =>
    simp only [step]
    split
    case isTrue hc =>
      cases hac : activeCard s with
      | some c =>
        refine ⟨ledgerWF_addToMistakes now c hled, hwrong, ?_⟩
        intro hst
        simp only at hst
        rw [hc.1] at hst
        cases hst
      | none => exact ⟨hled, hwrong, hrev⟩
    case isFalse => exact ⟨hled, hwrong, hrev⟩
  | remove w =>
    simp only [step]
    split
    case isTrue hc =>
      refine ⟨ledgerWF_filter _ hled, hwrong, ?_⟩
      intro hst
      simp only [removeMistake] at hst
      rw [hc] at hst
      cases hst
    case isFalse => exact ⟨hled, hwrong, hrev⟩
  | openMistakes =>
    simp only [step]
    split
    · refine ⟨hled, hwrong, ?_⟩
      intro hst
      simp at hst
    · exact ⟨hled, hwrong, hrev⟩
  | closeMistakes =>
    simp only [step]
    split
    · refine ⟨hled, hwrong, ?_⟩
      intro hst
      simp at hst
    · exact ⟨hled, hwrong, hrev⟩
  | goHome =>
    simp only [step]
    refine ⟨hled, hwrong, ?_⟩
    intro hst
    simp at hst

theorem WF_steps (evs : List Event) {s : AppState} (h : WF s) : WF (steps evs s) := by
  induction evs generalizing s with
  | nil => exact h
  | cons e evs ih => exact ih (WF_step e h)

theorem WF_initState {m0 : List MistakeRecord} (pf : Except Unit (List WordCard))
    (h : ledgerWF m0) : WF (initState m0 pf) := by
  refine ⟨h, by simp [initState], ?_⟩
  intro hst
  simp [initState] at hst

theorem WF_reachable {m0 : List MistakeRecord} {pf : Except Unit (List WordCard)}
    {s : AppState} (h0 : ledgerWF m0) (hr : Reachable m0 pf s) : WF s := by
  rcases hr with ⟨evs, rfl⟩
  exact WF_steps evs (WF_initState pf h0)

/-- Full description of the injection branch of nextWord. -/
theorem nextWord_inject {s : AppState} (hrw : s.reviewWord = none)
    (rIdx rThr : Nat) (fetch : Except Unit (List WordCard))
    (hc : s.nextReviewThreshold ≤ s.wordsSinceReview + 1)
    (hne : 0 < (reviewCandidates s.mistakes).length) :
    nextWord rIdx rThr fetch s =
      { s with selectedOption := none, wrongCandidates := [],
               reviewWord := some ((reviewCandidates s.mistakes).get
                 ⟨rIdx % (reviewCandidates s.mistakes).length, Nat.mod_lt rIdx hne⟩),
               wordsSinceReview := 0,
               nextReviewThreshold := rThr % 11 + 10,
               status := AppStatus.QUIZ } := by
  unfold nextWord resetCardState
  simp only [hrw]
  rw [dif_pos ⟨hc, hne⟩]

/-- Full description of the no-injection (regular advance) branches of
nextWord, as far as the scheduler state is concerned. -/
theorem nextWord_no_inject {s : AppState} (hrw : s.reviewWord = none)
    (rIdx rThr : Nat) (fetch : Except Unit (List WordCard))
    (hc : ¬(s.nextReviewThreshold ≤ s.wordsSinceReview + 1 ∧
            0 < (reviewCandidates s.mistakes).length)) :
    (nextWord rIdx rThr fetch s).reviewWord = none ∧
    (nextWord rIdx rThr fetch s).wordsSinceReview = s.wordsSinceReview + 1 ∧
    (nextWord rIdx rThr fetch s).nextReviewThreshold = s.nextReviewThreshold := by
  unfold nextWord resetCardState
  simp only [hrw]
  rw [dif_neg hc]
  split
  · exact ⟨rfl, rfl, rfl⟩
  · cases fetch <;> exact ⟨rfl, rfl, rfl⟩

theorem step_answer_eq {s : AppState} (now : Nat) (opt : String)
    (hst : s.status = AppStatus.QUIZ) (hnw : opt ∉ s.wrongCandidates) :
    step (Event.answer now opt) s = handleAnswer now opt s := by
  simp only [step]
  rw [if_pos ⟨hst, hnw⟩]

theorem handleAnswer_correct_review {s : AppState} {r : MistakeRecord} (now : Nat)
    {opt : String} (hrw : s.reviewWord = some r) (hm : opt = r.meaning) :
    handleAnswer now opt s =
      { s with
        mistakes := s.mistakes.map (fun (m : MistakeRecord) =>
          if m.word == r.word then { m with consecutiveCorrect := m.consecutiveCorrect + 1 }
          else m),
        selectedOption := some opt, status := AppStatus.REVIEW } := by
  subst hm
  unfold handleAnswer activeCard
  simp only [hrw]
  rw [if_pos (beq_self_eq_true r.meaning)]

theorem handleAnswer_correct_new {s : AppState} {card : WordCard} (now : Nat)
    {opt : String} (hrw : s.reviewWord = none)
    (hac : s.words[s.currentIndex]? = some card) (hm : opt = card.meaning) :
    handleAnswer now opt s =
      { s with selectedOption := some opt, status := AppStatus.REVIEW } := by
  subst hm
  unfold handleAnswer activeCard
  simp only [hrw, hac]
  rw [if_pos (beq_self_eq_true card.meaning)]

theorem handleAnswer_first_wrong {s : AppState} {card : WordCard} (now : Nat)
    {opt : String} (hac : activeCard s = some card) (hm : opt ≠ card.meaning)
    (hwc : s.wrongCandidates = []) :
    handleAnswer now opt s = { s with wrongCandidates := [opt] } := by
  unfold handleAnswer
  simp only [hac]
  rw [if_neg (by simp [hm])]
  rw [if_pos (by simp [hwc])]
  rw [hwc]
  rfl

theorem handleAnswer_second_wrong_review {s : AppState} {r : MistakeRecord} (now : Nat)
    {opt : String} (hrw : s.reviewWord = some r) (hm : opt ≠ r.meaning)
    (hwc : s.wrongCandidates ≠ []) :
    handleAnswer now opt s =
      { s with
        mistakes := s.mistakes.map (fun (m : MistakeRecord) =>
          if m.word == r.word then { m with consecutiveCorrect := 0 } else m),
        selectedOption := some opt, status := AppStatus.REVIEW } := by
  unfold handleAnswer activeCard
  simp only [hrw]
  rw [if_neg (by simp [hm])]
  rw [if_neg (by simp [hwc])]

theorem handleAnswer_second_wrong_new {s : AppState} {card : WordCard} (now : Nat)
    {opt : String} (hrw : s.reviewWord = none)
    (hac : s.words[s.currentIndex]? = some card) (hm : opt ≠ card.meaning)
    (hwc : s.wrongCandidates ≠ []) :
    handleAnswer now opt s =
      { s with mistakes := addToMistakes now card s.mistakes,
               selectedOption := some opt, status := AppStatus.REVIEW } := by
  unfold handleAnswer activeCard
  simp only [hrw, hac]
  rw [if_neg (by simp [hm])]
  rw [if_neg (by simp [hwc])]

/-- Concrete data used by witness and counterexample theorems. -/
def cardA : WordCard :=
  { word := "abate", phonetic := "abeit", meaning := "reduce",
    options := ["reduce", "argue", "praise", "omit"],
    mnemonic := "memory aid", sentence := "The storm abated.",
    sentenceTranslation := "the storm calmed" }

/-- A second concrete card. -/
def cardB : WordCard :=
  { word := "bland", phonetic := "blaend", meaning := "dull",
    options := ["dull", "spicy", "brave", "calm"],
    mnemonic := "memory aid b", sentence := "A bland dish.",
    sentenceTranslation := "a dull dish" }

/-- A concrete unmastered ledger record. -/
def recA : MistakeRecord :=
  { toWordCard := cardA, timestamp := 7, consecutiveCorrect := 1 }

/-- A concrete session state: ShowingResult of a regular-flow word, with
the spec scenario counters wordsSinceReview = 9, nextReviewThreshold = 10
and a non-empty eligible set. -/
def sExample : AppState :=
  { status := AppStatus.REVIEW, words := [cardA, cardB], currentIndex := 0,
    mistakes := [recA], selectedOption := some "argue", wrongCandidates := [],
    reviewWord := none, wordsSinceReview := 9, nextReviewThreshold := 10,
    initFetch := none, alerts := 0 }

/-- C1: after a completed regular-flow word (reviewWord is clear), the
counter is incremented by 1; an injection happens exactly when the
incremented counter reaches the threshold and the eligible set is
non-empty; on injection the review word is the randomly indexed eligible
record, the counter resets to 0 and the new threshold lies in [10, 20]
(with every eligible record and every threshold value reachable by some
random draw); with an empty eligible set no injection ever occurs, and in
every no-injection case the counter is simply the increment and the
threshold is unchanged. -/
theorem C1_review_scheduler (rIdx rThr : Nat) (fetch : Except Unit (List WordCard))
    (s : AppState) (hrw : s.reviewWord = none) :
    ((nextWord rIdx rThr fetch s).reviewWord.isSome ↔
      (s.nextReviewThreshold ≤ s.wordsSinceReview + 1 ∧
       0 < (reviewCandidates s.mistakes).length)) ∧
    (∀ _ : s.nextReviewThreshold ≤ s.wordsSinceReview + 1,
     ∀ hne : 0 < (reviewCandidates s.mistakes).length,
      (nextWord rIdx rThr fetch s).reviewWord =
        some ((reviewCandidates s.mistakes).get
          ⟨rIdx % (reviewCandidates s.mistakes).length, Nat.mod_lt rIdx hne⟩) ∧
      (nextWord rIdx rThr fetch s).wordsSinceReview = 0 ∧
      (nextWord rIdx rThr fetch s).nextReviewThreshold = rThr % 11 + 10 ∧
      10 ≤ (nextWord rIdx rThr fetch s).nextReviewThreshold ∧
      (nextWord rIdx rThr fetch s).nextReviewThreshold ≤ 20) ∧
    (¬(s.nextReviewThreshold ≤ s.wordsSinceReview + 1 ∧
       0 < (reviewCandidates s.mistakes).length) →
      (nextWord rIdx rThr fetch s).reviewWord = none ∧
      (nextWord rIdx rThr fetch s).wordsSinceReview = s.wordsSinceReview + 1 ∧
      (nextWord rIdx rThr fetch s).nextReviewThreshold = s.nextReviewThreshold) ∧
    (reviewCandidates s.mistakes = [] → (nextWord rIdx rThr fetch s).reviewWord = none) ∧
    (∀ i, ∀ hi : i < (reviewCandidates s.mistakes).length,
       s.nextReviewThreshold ≤ s.wordsSinceReview + 1 →
       ∃ u, (nextWord u rThr fetch s).reviewWord =
         some ((reviewCandidates s.mistakes).get ⟨i, hi⟩)) ∧
    (∀ t, 10 ≤ t → t ≤ 20 → s.nextReviewThreshold ≤ s.wordsSinceReview + 1 →
       0 < (reviewCandidates s.mistakes).length →
       ∃ v, (nextWord rIdx v fetch s).nextReviewThreshold = t) := by
  refine ⟨⟨?_, ?_⟩, ?_, ?_, ?_, ?_, ?_⟩
  · intro hs
    by_contra hc
    have hni := (nextWord_no_inject hrw rIdx rThr fetch hc).1
    rw [hni] at hs
    simp at hs
  · intro hc
    rw [nextWord_inject hrw rIdx rThr fetch hc.1 hc.2]
    rfl
  · intro hc hne
    rw [nextWord_inject hrw rIdx rThr fetch hc hne]
    refine ⟨rfl, rfl, rfl, ?_, ?_⟩
    · show 10 ≤ rThr % 11 + 10
      omega
    · show rThr % 11 + 10 ≤ 20
      omega
  · exact nextWord_no_inject hrw rIdx rThr fetch
  · intro hemp
    have hc : ¬(s.nextReviewThreshold ≤ s.wordsSinceReview + 1 ∧
        0 < (reviewCandidates s.mistakes).length) := by
      rw [hemp]
      simp
    exact (nextWord_no_inject hrw rIdx rThr fetch hc).1
  · intro i hi hc
    have hne : 0 < (reviewCandidates s.mistakes).length :=
      Nat.lt_of_le_of_lt (Nat.zero_le i) hi
    refine ⟨i, ?_⟩
    rw [nextWord_inject hrw i rThr fetch hc hne]
    have hfin : (⟨i % (reviewCandidates s.mistakes).length, Nat.mod_lt i hne⟩ :
        Fin (reviewCandidates s.mistakes).length) = ⟨i, hi⟩ :=
      Fin.ext (Nat.mod_eq_of_lt hi)
    show some ((reviewCandidates s.mistakes).get
      ⟨i % (reviewCandidates s.mistakes).length, Nat.mod_lt i hne⟩) = _
    rw [hfin]
  · intro t h10 h20 hc hne
    refine ⟨t - 10, ?_⟩
    rw [nextWord_inject hrw rIdx (t - 10) fetch hc hne]
    show (t - 10) % 11 + 10 = t
    omega

/-- C1 witness: in the concrete spec scenario (counter 9, threshold 10,
one eligible record) the next completion injects recA, resets the
counter and draws a threshold in [10, 20]. -/
theorem C1_witness :
    (nextWord 0 0 (Except.error ()) sExample).reviewWord = some recA ∧
    (nextWord 0 0 (Except.error ()) sExample).wordsSinceReview = 0 ∧
    10 ≤ (nextWord 0 0 (Except.error ()) sExample).nextReviewThreshold ∧
    (nextWord 0 0 (Except.error ()) sExample).nextReviewThreshold ≤ 20 := by
  have h := C1_review_scheduler 0 0 (Except.error ()) sExample rfl
  have h2 := h.2.1 (by decide) (by decide)
  refine ⟨?_, h2.2.1, h2.2.2.2.1, h2.2.2.2.2⟩
  rw [h2.1]
  decide

/-- C5: advancing out of the result screen of a review word clears the
review slot, returns to the quiz at the same batch position, and leaves
the scheduler counter, the threshold, the batch, its index and the
ledger untouched (the scheduler decision is not invoked). -/
theorem C5_after_review_frame (s : AppState) (r : MistakeRecord) (rIdx rThr : Nat)
    (fetch : Except Unit (List WordCard))
    (hst : s.status = AppStatus.REVIEW) (hr : s.reviewWord = some r) :
    (step (Event.next rIdx rThr fetch) s).reviewWord = none ∧
    (step (Event.next rIdx rThr fetch) s).status = AppStatus.QUIZ ∧
    (step (Event.next rIdx rThr fetch) s).wordsSinceReview = s.wordsSinceReview ∧
    (step (Event.next rIdx rThr fetch) s).nextReviewThreshold = s.nextReviewThreshold ∧
    (step (Event.next rIdx rThr fetch) s).currentIndex = s.currentIndex ∧
    (step (Event.next rIdx rThr fetch) s).words = s.words ∧
    (step (Event.next rIdx rThr fetch) s).mistakes = s.mistakes := by
  have hs : step (Event.next rIdx rThr fetch) s = nextWord rIdx rThr fetch s := by
    simp only [step]
    rw [if_pos hst]
  rw [hs, nextWord_after_review hr]
  exact ⟨rfl, rfl, rfl, rfl, rfl, rfl, rfl⟩

/-- A concrete result screen of a review word. -/
def sReview : AppState :=
  { sExample with reviewWord := some recA, wordsSinceReview := 3 }

/-- C5 witness at the concrete review-result state. -/
theorem C5_witness :
    (step (Event.next 0 0 (Except.error ())) sReview).reviewWord = none ∧
    (step (Event.next 0 0 (Except.error ())) sReview).status = AppStatus.QUIZ ∧
    (step (Event.next 0 0 (Except.error ())) sReview).wordsSinceReview =
      sReview.wordsSinceReview ∧
    (step (Event.next 0 0 (Except.error ())) sReview).nextReviewThreshold =
      sReview.nextReviewThreshold ∧
    (step (Event.next 0 0 (Except.error ())) sReview).currentIndex =
      sReview.currentIndex ∧
    (step (Event.next 0 0 (Except.error ())) sReview).words = sReview.words ∧
    (step (Event.next 0 0 (Except.error ())) sReview).mistakes = sReview.mistakes :=
  C5_after_review_frame sReview recA 0 0 (Except.error ()) rfl rfl

/-- C2: in every reachable session (from a well-formed loaded ledger)
every record's streak lies in [0, 3] (the lower bound is inherent to the
natural-number embedding); a freshly created record starts at streak 0;
a correct review answer for a word increments exactly that record's
streak by 1 and an incorrect (second-wrong) review answer resets it
to 0; a record is eligible for selection exactly when its streak is
below 3, the scheduler never removes records, and any record it injects
is an eligible ledger member. -/
theorem C2_streak_bounds {m0 : List MistakeRecord} {pf : Except Unit (List WordCard)}
    {s : AppState} (h0 : ledgerWF m0) (hr : Reachable m0 pf s) :
    (∀ m ∈ s.mistakes, m.consecutiveCorrect ≤ 3) ∧
    (∀ now card, card.word ∉ s.mistakes.map (fun m => m.word) →
        addToMistakes now card s.mistakes =
          { toWordCard := card, timestamp := now, consecutiveCorrect := 0 } :: s.mistakes) ∧
    (∀ now (r : MistakeRecord) (opt : String), s.status = AppStatus.QUIZ →
        s.reviewWord = some r → opt = r.meaning → opt ∉ s.wrongCandidates →
        ∀ (i : Nat) (mOld : MistakeRecord), s.mistakes[i]? = some mOld →
          mOld.word = r.word →
          (step (Event.answer now opt) s).mistakes[i]? =
            some { mOld with consecutiveCorrect := mOld.consecutiveCorrect + 1 }) ∧
    (∀ now (r : MistakeRecord) (opt : String), s.status = AppStatus.QUIZ →
        s.reviewWord = some r → opt ≠ r.meaning → opt ∉ s.wrongCandidates →
        s.wrongCandidates ≠ [] →
        ∀ (i : Nat) (mOld : MistakeRecord), s.mistakes[i]? = some mOld →
          mOld.word = r.word →
          (step (Event.answer now opt) s).mistakes[i]? =
            some { mOld with consecutiveCorrect := 0 }) ∧
    (∀ m ∈ s.mistakes, (m ∈ reviewCandidates s.mistakes ↔ m.consecutiveCorrect < 3)) ∧
    (∀ rIdx rThr fetch, (nextWord rIdx rThr fetch s).mistakes = s.mistakes) ∧
    (s.reviewWord = none → ∀ rIdx rThr fetch w,
        (nextWord rIdx rThr fetch s).reviewWord = some w →
        w ∈ s.mistakes ∧ w.consecutiveCorrect < 3) := by
  refine ⟨(WF_reachable h0 hr).1.1, ?_, ?_, ?_, ?_, ?_, ?_⟩
  · intro now card hnot
    unfold addToMistakes
    rw [if_neg]
    intro hany
    rcases List.any_eq_true.mp hany with ⟨m, hm, hbeq⟩
    exact hnot (List.mem_map.mpr ⟨m, hm, eq_of_beq hbeq⟩)
  · intro now r opt hst hrw hm hnw i mOld hOld hword
    rw [step_answer_eq now opt hst hnw, handleAnswer_correct_review now hrw hm]
    show (s.mistakes.map _)[i]? = _
    rw [List.getElem?_map, hOld]
    simp only [Option.map_some']
    rw [if_pos (beq_iff_eq.mpr hword)]
  · intro now r opt hst hrw hm hnw hne i mOld hOld hword
    rw [step_answer_eq now opt hst hnw, handleAnswer_second_wrong_review now hrw hm hne]
    show (s.mistakes.map _)[i]? = _
    rw [List.getElem?_map, hOld]
    simp only [Option.map_some']
    rw [if_pos (beq_iff_eq.mpr hword)]
  · intro m hm
    constructor
    · intro hmem
      have h2 : m ∈ s.mistakes ∧ m.consecutiveCorrect < 3 := by
        simpa [reviewCandidates, List.mem_filter] using hmem
      exact h2.2
    · intro hlt
      simp only [reviewCandidates, List.mem_filter]
      exact ⟨hm, decide_eq_true hlt⟩
  · intro rIdx rThr fetch
    exact nextWord_mistakes rIdx rThr fetch s
  · intro hrw rIdx rThr fetch w hw
    exact nextWord_inject_mem hrw hw

/-- C2 witness: the invariant instantiated at the mount state with the
concrete one-record ledger. -/
theorem C2_witness : recA.consecutiveCorrect ≤ 3 :=
  (@C2_streak_bounds [recA] (Except.ok [cardA])
      (initState [recA] (Except.ok [cardA]))
      ⟨by decide, by decide⟩ ⟨[], rfl⟩).1 recA (by decide)

/-- C3: in every reachable session at most one wrong attempt is ever
recorded for the card on screen; submitting an already-wrong option is
rejected by the disabled control (a no-op); a first wrong submission on
a fresh card keeps the quiz presenting with exactly that option
disabled; a correct submission or a second wrong submission leaves the
presenting state for the result screen.  Together these give at most 2
accepted submissions per card instance. -/
theorem C3_two_strike {m0 : List MistakeRecord} {pf : Except Unit (List WordCard)}
    {s : AppState} (h0 : ledgerWF m0) (hr : Reachable m0 pf s) :
    s.wrongCandidates.length ≤ 1 ∧
    (∀ now opt, s.status = AppStatus.QUIZ → opt ∈ s.wrongCandidates →
        step (Event.answer now opt) s = s) ∧
    (∀ now opt card, s.status = AppStatus.QUIZ → activeCard s = some card →
        opt ∉ s.wrongCandidates → opt ≠ card.meaning → s.wrongCandidates = [] →
        (step (Event.answer now opt) s).status = AppStatus.QUIZ ∧
        (step (Event.answer now opt) s).wrongCandidates = [opt]) ∧
    (∀ now opt card, s.status = AppStatus.QUIZ → activeCard s = some card →
        opt ∉ s.wrongCandidates → opt = card.meaning →
        (step (Event.answer now opt) s).status = AppStatus.REVIEW ∧
        (step (Event.answer now opt) s).selectedOption = some opt) ∧
    (∀ now opt card, s.status = AppStatus.QUIZ → activeCard s = some card →
        opt ∉ s.wrongCandidates → opt ≠ card.meaning → s.wrongCandidates ≠ [] →
        (step (Event.answer now opt) s).status = AppStatus.REVIEW ∧
        (step (Event.answer now opt) s).selectedOption = some opt) := by
  refine ⟨(WF_reachable h0 hr).2.1, ?_, ?_, ?_, ?_⟩
  · intro now opt _ hin
    simp only [step]
    rw [if_neg]
    intro hcon
    exact hcon.2 hin
  · intro now opt card hst hac hnw hm hwc
    rw [step_answer_eq now opt hst hnw, handleAnswer_first_wrong now hac hm hwc]
    exact ⟨hst, rfl⟩
  · intro now opt card hst hac hnw hm
    cases hrw : s.reviewWord with
    | some r =>
      have hcard : card = r.toWordCard := by
        unfold activeCard at hac
        rw [hrw] at hac
        exact (Option.some.inj hac).symm
      have hm2 : opt = r.meaning := hm.trans (congrArg WordCard.meaning hcard)
      rw [step_answer_eq now opt hst hnw, handleAnswer_correct_review now hrw hm2]
      exact ⟨rfl, rfl⟩
    | none =>
      have hac2 : s.words[s.currentIndex]? = some card := by
        unfold activeCard at hac
        rw [hrw] at hac
        exact hac
      rw [step_answer_eq now opt hst hnw, handleAnswer_correct_new now hrw hac2 hm]
      exact ⟨rfl, rfl⟩
  · intro now opt card hst hac hnw hm hne
    cases hrw : s.reviewWord with
    | some r =>
      have hcard : card = r.toWordCard := by
        unfold activeCard at hac
        rw [hrw] at hac
        exact (Option.some.inj hac).symm
      have hm2 : opt ≠ r.meaning := by
        rw [hcard] at hm
        exact hm
      rw [step_answer_eq now opt hst hnw, handleAnswer_second_wrong_review now hrw hm2 hne]
      exact ⟨rfl, rfl⟩
    | none =>
      have hac2 : s.words[s.currentIndex]? = some card := by
        unfold activeCard at hac
        rw [hrw] at hac
        exact hac
      rw [step_answer_eq now opt hst hnw, handleAnswer_second_wrong_new now hrw hac2 hm hne]
      exact ⟨rfl, rfl⟩

/-- A concrete freshly started quiz session. -/
def sQuiz : AppState :=
  steps [Event.start (Except.ok [cardA, cardB])] (initState [] (Except.ok [cardA, cardB]))

/-- C3 witness: at the concrete fresh quiz state a first wrong option
keeps presenting and disables exactly that option. -/
theorem C3_witness :
    (step (Event.answer 0 "argue") sQuiz).status = AppStatus.QUIZ ∧
    (step (Event.answer 0 "argue") sQuiz).wrongCandidates = ["argue"] := by
  have h := @C3_two_strike [] (Except.ok [cardA, cardB]) sQuiz
    ⟨by decide, by decide⟩ ⟨[Event.start (Except.ok [cardA, cardB])], rfl⟩
  exact h.2.2.1 0 "argue" cardA (by decide) (by decide) (by decide) (by decide) (by decide)

/-- C4: in every reachable session the ledger never holds two records
with the same word; add on an already-present word is a no-op leaving
every existing record (timestamp and streak included) unchanged; add on
an absent word prepends a fresh record with streak 0 and the supplied
timestamp, leaving the rest of the collection unchanged. -/
theorem C4_ledger_unique {m0 : List MistakeRecord} {pf : Except Unit (List WordCard)}
    {s : AppState} (h0 : ledgerWF m0) (hr : Reachable m0 pf s) :
    (s.mistakes.map (fun m => m.word)).Nodup ∧
    (∀ now card, (∃ m ∈ s.mistakes, m.word = card.word) →
        addToMistakes now card s.mistakes = s.mistakes) ∧
    (∀ now card, (∀ m ∈ s.mistakes, m.word ≠ card.word) →
        addToMistakes now card s.mistakes =
          { toWordCard := card, timestamp := now, consecutiveCorrect := 0 } :: s.mistakes) := by
  refine ⟨(WF_reachable h0 hr).1.2, ?_, ?_⟩
  · intro now card hex
    unfold addToMistakes
    rcases hex with ⟨m, hm, hw⟩
    have hany : (s.mistakes.any fun m => m.word == card.word) = true :=
      List.any_eq_true.mpr ⟨m, hm, beq_iff_eq.mpr hw⟩
    rw [if_pos hany]
  · intro now card hall
    unfold addToMistakes
    rw [if_neg]
    intro hany
    rcases List.any_eq_true.mp hany with ⟨m, hm, hbeq⟩
    exact hall m hm (eq_of_beq hbeq)

/-- C4 witness: adding the already-present word at the concrete mount
state changes nothing. -/
theorem C4_witness :
    addToMistakes 5 cardA (initState [recA] (Except.ok [])).mistakes =
      (initState [recA] (Except.ok [])).mistakes := by
  have h := @C4_ledger_unique [recA] (Except.ok [])
    (initState [recA] (Except.ok [])) ⟨by decide, by decide⟩ ⟨[], rfl⟩
  exact h.2.1 5 cardA ⟨recA, by decide, by decide⟩

/-- A concrete result state at the last card of a batch, with nothing
eligible for review and no alert emitted so far. -/
def sC6 : AppState :=
  { status := AppStatus.REVIEW, words := [cardA], currentIndex := 0, mistakes := [],
    selectedOption := some "reduce", wrongCandidates := [], reviewWord := none,
    wordsSinceReview := 0, nextReviewThreshold := 10, initFetch := none, alerts := 0 }

/-- C6 counterexample: when fetching the next batch after the last card
fails, the session does return to IDLE, but no user-visible alert is
emitted (the source only logs to the console in this path), refuting the
claim that the failure is surfaced to the user in both loading paths. -/
theorem C6_counterexample :
    (step (Event.next 0 0 (Except.error ())) sC6).status = AppStatus.IDLE ∧
    ¬ sC6.alerts < (step (Event.next 0 0 (Except.error ())) sC6).alerts := by
  decide

/-- C6 amended: a batch-fetch failure always returns the session to
IDLE and the state stays recoverable by a fresh start; on the initial
session start the failure is additionally surfaced by a user alert and
the prefetch slot is cleared, while on loading a subsequent batch after
the last card the failure is only logged: no alert is emitted and the
prior session data (including the ledger) is kept. -/
theorem C6_failure_paths (s : AppState) (ws : List WordCard) (rIdx rThr : Nat) :
    (s.status = AppStatus.IDLE →
      (s.initFetch = none ∨ s.initFetch = some (Except.error ())) →
      (step (Event.start (Except.error ())) s).status = AppStatus.IDLE ∧
      (step (Event.start (Except.error ())) s).alerts = s.alerts + 1 ∧
      (step (Event.start (Except.error ())) s).initFetch = none) ∧
    (s.status = AppStatus.REVIEW → s.reviewWord = none →
      ¬(s.nextReviewThreshold ≤ s.wordsSinceReview + 1 ∧
        0 < (reviewCandidates s.mistakes).length) →
      ¬ s.currentIndex < s.words.length - 1 →
      (step (Event.next rIdx rThr (Except.error ())) s).status = AppStatus.IDLE ∧
      (step (Event.next rIdx rThr (Except.error ())) s).alerts = s.alerts ∧
      (step (Event.next rIdx rThr (Except.error ())) s).mistakes = s.mistakes) ∧
    (s.status = AppStatus.IDLE → s.initFetch = none →
      (step (Event.start (Except.ok ws)) s).status = AppStatus.QUIZ ∧
      (step (Event.start (Except.ok ws)) s).words = ws ∧
      (step (Event.start (Except.ok ws)) s).currentIndex = 0) := by
  refine ⟨?_, ?_, ?_⟩
  · intro hst hslot
    have hs : step (Event.start (Except.error ())) s = startSession (Except.error ()) s := by
      simp only [step]
      rw [if_pos hst]
    rw [hs]
    unfold startSession
    rcases hslot with h | h <;> rw [h] <;> exact ⟨rfl, rfl, rfl⟩
  · intro hst hrw hc hidx
    have hs : step (Event.next rIdx rThr (Except.error ())) s =
        nextWord rIdx rThr (Except.error ()) s := by
      simp only [step]
      rw [if_pos hst]
    rw [hs]
    unfold nextWord resetCardState
    simp only [hrw]
    rw [dif_neg hc]
    rw [if_neg hidx]
    exact ⟨rfl, rfl, rfl⟩
  · intro hst hslot
    have hs : step (Event.start (Except.ok ws)) s = startSession (Except.ok ws) s := by
      simp only [step]
      rw [if_pos hst]
    rw [hs]
    unfold startSession resetCardState
    rw [hslot]
    exact ⟨rfl, rfl, rfl⟩

/-- A concrete result state at the last card of a batch where the
ledger holds one eligible record but the counter is still below the
threshold, so the regular flow proceeds to fetch the next batch. -/
def sC6b : AppState :=
  { status := AppStatus.REVIEW, words := [cardA], currentIndex := 0,
    mistakes := [recA], selectedOption := some "reduce", wrongCandidates := [],
    reviewWord := none, wordsSinceReview := 2, nextReviewThreshold := 10,
    initFetch := none, alerts := 0 }

/-- C6 witness: the amended batch-load failure behavior at sC6b, with a
non-empty eligible set and the counter below the threshold. -/
theorem C6_witness :
    (step (Event.next 0 0 (Except.error ())) sC6b).status = AppStatus.IDLE ∧
    (step (Event.next 0 0 (Except.error ())) sC6b).alerts = sC6b.alerts ∧
    (step (Event.next 0 0 (Except.error ())) sC6b).mistakes = sC6b.mistakes := by
  have h := C6_failure_paths sC6b [] 0 0
  exact h.2.1 rfl rfl (by decide) (by decide)

/-- C7 counterexample: a successful provider response whose text is
absent resolves with an empty batch of 0 cards, not with 5 cards. -/
theorem C7_counterexample :
    fetchWordBatch (fun _ _ => true) (ProviderResponse.ok none) =
      Except.ok ([] : List WordCard) ∧
    ([] : List WordCard).length ≠ 5 := ⟨rfl, by decide⟩

/-- C7 amended: fetchWordBatch either fails with the provider error or
resolves with exactly the provider-parsed cards (options reshuffled):
the resolved batch size equals the number of cards in the response text
and is 0 when the text is absent; a batch of 5 is requested from the
provider by the prompt and schema, but the size is not enforced by the
client. -/
theorem C7_batch_contract (cmp : String → String → Bool) (resp : ProviderResponse) :
    (resp = ProviderResponse.fail → fetchWordBatch cmp resp = Except.error ()) ∧
    (resp = ProviderResponse.ok none → fetchWordBatch cmp resp = Except.ok []) ∧
    (∀ data : List WordCard, resp = ProviderResponse.ok (some data) →
      ∃ out : List WordCard, fetchWordBatch cmp resp = Except.ok out ∧
        out.length = data.length) := by
  refine ⟨?_, ?_, ?_⟩
  · intro h
    rw [h]
    rfl
  · intro h
    rw [h]
    rfl
  · intro data h
    rw [h]
    refine ⟨_, rfl, ?_⟩
    simp [fetchWordBatch]

/-- C7 witness: a failing provider response is rethrown. -/
theorem C7_witness :
    fetchWordBatch (fun _ _ => false) ProviderResponse.fail = Except.error () := by
  have h := C7_batch_contract (fun _ _ => false) ProviderResponse.fail
  exact h.1 rfl

/-- C8: the ledger serialized to the persistent store and deserialized
back is the identical ordered collection of records, every field and
the record order included. -/
theorem C8_roundtrip (ms : List MistakeRecord) :
    decodeLedger (encodeLedger ms) = some ms := by
  unfold encodeLedger decodeLedger
  exact decodeRecords_encode ms

/-- C9: for every card in a successfully fetched batch the client-side
shuffle only permutes that card's options: the multiset of option
strings is unchanged (and all other fields are untouched), so whenever
the provider included the correct meaning among the options it is still
present after the shuffle. -/
theorem C9_shuffle_perm (cmp : String → String → Bool) (data out : List WordCard)
    (hout : fetchWordBatch cmp (ProviderResponse.ok (some data)) = Except.ok out) :
    out.length = data.length ∧
    ∀ (i : Nat) (c d : WordCard), data[i]? = some d → out[i]? = some c →
      c.word = d.word ∧ c.meaning = d.meaning ∧ c.phonetic = d.phonetic ∧
      c.mnemonic = d.mnemonic ∧ c.sentence = d.sentence ∧
      c.sentenceTranslation = d.sentenceTranslation ∧
      c.options.Perm d.options ∧ (d.meaning ∈ d.options → c.meaning ∈ c.options) := by
  have hmap : out =
      data.map (fun item => { item with options := sortCmp cmp item.options }) := by
    unfold fetchWordBatch at hout
    exact (Except.ok.inj hout).symm
  subst hmap
  refine ⟨by simp, ?_⟩
  intro i c d hd hc
  rw [List.getElem?_map, hd] at hc
  simp only [Option.map_some'] at hc
  have hc2 : c = { d with options := sortCmp cmp d.options } := (Option.some.inj hc).symm
  subst hc2
  refine ⟨rfl, rfl, rfl, rfl, rfl, rfl, sortCmp_perm cmp d.options, ?_⟩
  intro hmem
  exact ((sortCmp_perm cmp d.options).mem_iff).mpr hmem

/-- The concrete card A with its options shuffled under a constant
comparator. -/
def shuffledA : WordCard :=
  { cardA with options := sortCmp (fun _ _ => false) cardA.options }

/-- C9 witness: the correct meaning survives the concrete shuffle. -/
theorem C9_witness : shuffledA.meaning ∈ shuffledA.options := by
  have h := C9_shuffle_perm (fun _ _ => false) [cardA] [shuffledA] rfl
  exact (h.2 0 shuffledA cardA (by decide) (by decide)).2.2.2.2.2.2.2 (by decide)

theorem mapUpdate_frame (w : String) (g : Nat → Nat) (ms : List MistakeRecord)
    (i : Nat) (mOld : MistakeRecord) (hOld : ms[i]? = some mOld) :
    ∃ mNew : MistakeRecord,
      ((ms.map (fun (m : MistakeRecord) =>
          if m.word == w then { m with consecutiveCorrect := g m.consecutiveCorrect }
          else m))[i]? = some mNew) ∧
      mNew.word = mOld.word ∧ mNew.phonetic = mOld.phonetic ∧
      mNew.meaning = mOld.meaning ∧ mNew.options = mOld.options ∧
      mNew.mnemonic = mOld.mnemonic ∧ mNew.sentence = mOld.sentence ∧
      mNew.sentenceTranslation = mOld.sentenceTranslation ∧
      mNew.timestamp = mOld.timestamp ∧ (mOld.word ≠ w → mNew = mOld) := by
  refine ⟨if mOld.word == w then
      { mOld with consecutiveCorrect := g mOld.consecutiveCorrect } else mOld, ?_, ?_⟩
  · rw [List.getElem?_map, hOld]
    rfl
  · by_cases hw : mOld.word == w
    · rw [if_pos hw]
      refine ⟨rfl, rfl, rfl, rfl, rfl, rfl, rfl, rfl, ?_⟩
      intro hne
      exact absurd (eq_of_beq hw) hne
    · rw [if_neg hw]
      exact ⟨rfl, rfl, rfl, rfl, rfl, rfl, rfl, rfl, fun _ => rfl⟩

/-- C10: a submitted review answer touches at most the streak field of
the records whose word matches the review word: the ledger keeps its
length and order, every record keeps all other fields, and any record
with a different word is unchanged entirely (a first wrong attempt on
the review card changes the ledger not at all). -/
theorem C10_review_ledger_frame {s : AppState} {r : MistakeRecord} (now : Nat)
    (opt : String) (hst : s.status = AppStatus.QUIZ) (hrw : s.reviewWord = some r)
    (hnw : opt ∉ s.wrongCandidates) :
    (step (Event.answer now opt) s).mistakes.length = s.mistakes.length ∧
    ∀ (i : Nat) (mOld : MistakeRecord), s.mistakes[i]? = some mOld →
      ∃ mNew : MistakeRecord,
        ((step (Event.answer now opt) s).mistakes[i]? = some mNew) ∧
        mNew.word = mOld.word ∧ mNew.phonetic = mOld.phonetic ∧
        mNew.meaning = mOld.meaning ∧ mNew.options = mOld.options ∧
        mNew.mnemonic = mOld.mnemonic ∧ mNew.sentence = mOld.sentence ∧
        mNew.sentenceTranslation = mOld.sentenceTranslation ∧
        mNew.timestamp = mOld.timestamp ∧ (mOld.word ≠ r.word → mNew = mOld) := by
  by_cases hm : opt = r.meaning
  · rw [step_answer_eq now opt hst hnw, handleAnswer_correct_review now hrw hm]
    constructor
    · show (s.mistakes.map _).length = _
      simp
    · intro i mOld hOld
      exact mapUpdate_frame r.word (fun n => n + 1) s.mistakes i mOld hOld
  · by_cases hwc : s.wrongCandidates = []
    · have hac : activeCard s = some r.toWordCard := by
        unfold activeCard
        rw [hrw]
      have hm2 : opt ≠ r.toWordCard.meaning := hm
      rw [step_answer_eq now opt hst hnw, handleAnswer_first_wrong now hac hm2 hwc]
      refine ⟨rfl, ?_⟩
      intro i mOld hOld
      exact ⟨mOld, hOld, rfl, rfl, rfl, rfl, rfl, rfl, rfl, rfl, fun _ => rfl⟩
    · rw [step_answer_eq now opt hst hnw,
          handleAnswer_second_wrong_review now hrw hm hwc]
      constructor
      · show (s.mistakes.map _).length = _
        simp
      · intro i mOld hOld
        exact mapUpdate_frame r.word (fun _ => 0) s.mistakes i mOld hOld

/-- A concrete quiz state presenting the review word recA. -/
def sQuizReview : AppState :=
  { sExample with status := AppStatus.QUIZ, reviewWord := some recA }

/-- C10 witness: the review answer at the concrete state keeps the
ledger length. -/
theorem C10_witness :
    (step (Event.answer 11 "reduce") sQuizReview).mistakes.length =
      sQuizReview.mistakes.length :=
  (@C10_review_ledger_frame sQuizReview recA 11 "reduce" rfl rfl (by decide)).1
